import Mathlib

/-!
# Formal model of the travel-route-planner core

A shallow embedding of the route-optimization core of the repository
(`mapbox_matrix.py` together with the add-stop handler of `app.py`).
Location names are modelled by an arbitrary type `α` with decidable
equality (Python compares names only for equality); travel durations and
distances are modelled by rationals; the two `dict`-of-`dict` lookup
tables are modelled as functions `α → α → Option ℚ`, matching the
`lookup.get(a, {}).get(b)` access pattern used throughout the source.
-/

set_option linter.unusedSectionVars false

namespace RoutePlanner

variable {α : Type} {κ : Type} [DecidableEq α]

/-- Model of the `Route` NamedTuple (`mapbox_matrix.py`, line 284): a path
together with its accumulated total distance and total duration. -/
structure Route (α : Type) where
  path : List α
  total_distance : ℚ
  total_duration : ℚ
deriving DecidableEq

/-- A distance or duration table: `lookup.get(a, {}).get(b)`. -/
abbrev Lookup (α : Type) := α → α → Option ℚ

/-- The consecutive pairs `(path[i], path[i+1])` visited by the summation
loop of `_evaluate_route`. -/
def routeLegs (path : List α) : List (α × α) := path.zip path.tail

/-- The leg-summation loop of `TSPSolver._evaluate_route` (lines 558-571):
a missing distance entry aborts the whole evaluation; a missing duration
entry contributes zero to the duration total. -/
def sumLegs (distL durL : Lookup α) : List (α × α) → Option (ℚ × ℚ)
  | [] => some (0, 0)
  | (f, t) :: rest =>
    match distL f t with
    | none => none
    | some d =>
      match sumLegs distL durL rest with
      | none => none
      | some (restD, restT) =>
        some (d + restD, (match durL f t with | some u => u | none => 0) + restT)

/-- The duration contribution of one leg: the looked-up value, or zero
when the entry is missing. -/
def durOrZero (durL : Lookup α) (p : α × α) : ℚ :=
  match durL p.1 p.2 with | some u => u | none => 0

/-- Model of `TSPSolver._evaluate_route` (lines 537-573). -/
def evaluateRoute (path : List α) (distL durL : Lookup α) : Option (Route α) :=
  if path.length < 2 then none
  else (sumLegs distL durL (routeLegs path)).map fun s => ⟨path, s.1, s.2⟩

/-- `itertools.permutations`, on a fuel argument so that the kernel can
evaluate it; `permutationsIT` instantiates the fuel with the list length,
which makes the fuel-exhaustion branch unreachable.  The enumeration order
(lexicographic in the index sequences) matches `itertools`. -/
def permsFuel : ℕ → List α → List (List α)
  | 0, _ => [[]]
  | fuel + 1, l =>
    (List.finRange l.length).flatMap fun i =>
      (permsFuel fuel (l.eraseIdx i)).map (l.get i :: ·)

/-- All permutations of `l`, in `itertools.permutations` order. -/
def permutationsIT (l : List α) : List (List α) := permsFuel l.length l

/-- The candidate-selection loop shared by the solver strategies: evaluate
each candidate path in order and keep the first one that strictly improves
on the best `key` value seen so far (`best_distance` starts at infinity, so
the first valid candidate is always kept). -/
def bestByStep (key : Route α → ℚ) (distL durL : Lookup α)
    (best : Option (Route α)) (path : List α) : Option (Route α) :=
  match evaluateRoute path distL durL with
  | none => best
  | some r =>
    match best with
    | none => some r
    | some b => if key r < key b then some r else best

def bestBy (key : Route α → ℚ) (distL durL : Lookup α)
    (cands : List (List α)) : Option (Route α) :=
  cands.foldl (bestByStep key distL durL) none

/-- The free (non-fixed) locations when a start is given: the input minus
the start, and minus the end when an end distinct from the start is given.
This computation appears verbatim both in `_solve_tsp_brute_force`
(lines 433-436) and in `_solve_tsp_nearest_neighbor` (lines 498-501). -/
def freeLocs (locations : List α) (s : α) (end? : Option α) : List α :=
  let remaining := locations.filter (· ≠ s)
  match end? with
  | some e => if e ≠ s then remaining.filter (· ≠ e) else remaining
  | none => remaining

/-- The fixed tail appended after the permuted free locations by
`_solve_tsp_brute_force` (lines 442-445, 455-456): the end location when
one distinct from the start is given, then the start again when
`return_to_start` is set. -/
def bfSuffix (s : α) (end? : Option α) (rts : Bool) : List α :=
  (match end? with
   | some e => if e ≠ s then [e] else []
   | none => []) ++ (if rts then [s] else [])

/-- The full candidate paths enumerated by `_solve_tsp_brute_force`
(lines 431-472): with a fixed start each permutation of the free locations
is wrapped as `[start] ++ perm ++ (end?) ++ (start if return_to_start)`;
without a fixed start every permutation of the whole list is taken and the
first element is re-appended when `return_to_start` is set.  (In the
source, `path.append(path[0])` on an empty permutation would raise;
`p.take 1` renders that unreachable case totally.) -/
def bfCandidates (locations : List α) (start? end? : Option α) (rts : Bool) :
    List (List α) :=
  match start? with
  | some s =>
    (permutationsIT (freeLocs locations s end?)).map
      fun p => s :: (p ++ bfSuffix s end? rts)
  | none =>
    (permutationsIT locations).map fun p => p ++ (if rts then p.take 1 else [])

/-- One scan step of the selection loop of `_solve_tsp_nearest_neighbor`
(lines 513-517): keep the candidate realising the strictly smallest value
seen so far (so the first occurrence of the minimum wins); locations with
no entry are skipped. -/
def selStep (key : α → Option ℚ) (acc : Option (α × ℚ)) (loc : α) :
    Option (α × ℚ) :=
  match key loc with
  | none => acc
  | some d =>
    match acc with
    | none => some (loc, d)
    | some (_, m) => if d < m then some (loc, d) else acc

/-- The inner selection loop of `_solve_tsp_nearest_neighbor`
(lines 510-517): scan the unvisited locations in order, keeping the first
one realising the strictly smallest **distance** from the current
location. -/
def selectNearest (distL : Lookup α) (current : α) (unvisited : List α) :
    Option α :=
  (unvisited.foldl (selStep (distL current)) none).map Prod.fst

/-- The greedy visiting loop of `_solve_tsp_nearest_neighbor`
(lines 509-525), on a fuel argument (instantiated with the length of the
unvisited list, which makes the fuel-exhaustion branch unreachable: each
step erases the selected member).  Returns the visiting order of the
initially unvisited locations. -/
def nnVisitFuel (distL : Lookup α) : ℕ → α → List α → Option (List α)
  | _, _, [] => some []
  | 0, _, _ :: _ => none
  | fuel + 1, current, unvisited =>
    match selectNearest distL current unvisited with
    | none => none
    | some n => (nnVisitFuel distL fuel n (unvisited.erase n)).map (n :: ·)

/-- The path-finishing steps of `_solve_tsp_nearest_neighbor`
(lines 527-533): append the end location when one is given and differs
from the current (last-visited) location, then append the start location
when `return_to_start` is set and the path does not already close. -/
def nnAssemble (start : α) (visits : List α) (end? : Option α)
    (rts : Bool) : List α :=
  let path := start :: visits
  let current := path.getLast (List.cons_ne_nil _ _)
  let path :=
    match end? with
    | some e => if e ≠ current then path ++ [e] else path
    | none => path
  if rts ∧ path.getLast? ≠ some start then path ++ [start] else path

/-- Model of `TSPSolver._solve_tsp_nearest_neighbor` (lines 476-535).
With no fixed start the source reads `locations[0]`, which raises on an
empty list; that (unreachable through `solve_tsp`) case is rendered as
`none`. -/
def solveTspNearestNeighbor (locations : List α) (distL durL : Lookup α)
    (start? end? : Option α) (rts : Bool) : Option (Route α) :=
  let init : Option (α × List α) :=
    match start? with
    | some s => some (s, freeLocs locations s end?)
    | none =>
      match locations with
      | [] => none
      | c :: rest => some (c, rest)
  match init with
  | none => none
  | some (start, unvisited) =>
    match nnVisitFuel distL unvisited.length start unvisited with
    | none => none
    | some visits => evaluateRoute (nnAssemble start visits end? rts) distL durL

/-- Model of `TSPSolver._solve_tsp_brute_force` (lines 400-474): above 12
locations it falls back to the nearest-neighbor heuristic; otherwise it
keeps the candidate ordering of minimal **total_distance**
(`route.total_distance < best_distance`, line 448). -/
def solveTspBruteForce (locations : List α) (distL durL : Lookup α)
    (start? end? : Option α) (rts : Bool) : Option (Route α) :=
  if locations.length > 12 then
    solveTspNearestNeighbor locations distL durL start? end? rts
  else
    bestBy Route.total_distance distL durL (bfCandidates locations start? end? rts)

/-- Modelled from the spec: `_solve_tsp_held_karp` is exercised by
`test_held_karp.py` but its definition is not under `src/`.  Spec §4.2
specifies it as an exact dynamic-programming strategy over the same
visiting-order search space as the brute-force strategy, whose result is
guaranteed to be the minimal-**duration** ordering ("finds the
minimal-duration visiting order"; "This guarantees the same optimum as
brute force").  We model it by that guaranteed result: the first candidate
ordering of minimal total duration. -/
def solveTspHeldKarp (locations : List α) (distL durL : Lookup α)
    (start? end? : Option α) (rts : Bool) : Option (Route α) :=
  bestBy Route.total_duration distL durL (bfCandidates locations start? end? rts)

/-- The minimum of a list of rationals (`none` on the empty list). -/
def listMinQ : List ℚ → Option ℚ
  | [] => none
  | x :: xs =>
    some (match listMinQ xs with | none => x | some m => min x m)

/-- The claim-side notion of the exact optimum: the minimal `total_duration`
over all valid (evaluable) candidate orderings of the instance. -/
def minDurationOfOrderings (locations : List α) (distL durL : Lookup α)
    (start? end? : Option α) (rts : Bool) : Option ℚ :=
  listMinQ ((bfCandidates locations start? end? rts).filterMap
    fun c => (evaluateRoute c distL durL).map Route.total_duration)

/-- Specification-side greedy chooser: the first location (in input order)
achieving the minimal defined value of `key`; `none` when no location has
a defined value.  Stated from the spec's words "the unvisited free
location with the smallest ... from the current location; ties broken by
the first such location in the input order". -/
def firstMinBy (key : α → Option ℚ) (unvisited : List α) : Option α :=
  match listMinQ (unvisited.filterMap key) with
  | none => none
  | some m => unvisited.find? fun loc => decide (key loc = some m)

/-- The greedy visiting loop, written with the declarative chooser
`firstMinBy` over an arbitrary greedy lookup. -/
def nnSpecVisitFuel (greedyL : Lookup α) : ℕ → α → List α → Option (List α)
  | _, _, [] => some []
  | 0, _, _ :: _ => none
  | fuel + 1, current, unvisited =>
    match firstMinBy (greedyL current) unvisited with
    | none => none
    | some n => (nnSpecVisitFuel greedyL fuel n (unvisited.erase n)).map (n :: ·)

/-- Specification-side nearest-neighbor solver: identical to
`solveTspNearestNeighbor` except that the greedy step is the declarative
`firstMinBy` over the lookup `greedyL`.  Instantiating `greedyL` with the
distance lookup gives the source's behaviour (see the C7 theorems);
instantiating it with the duration lookup gives the spec's wording. -/
def solveTspNearestNeighborSpec (greedyL : Lookup α) (locations : List α)
    (distL durL : Lookup α) (start? end? : Option α) (rts : Bool) :
    Option (Route α) :=
  let init : Option (α × List α) :=
    match start? with
    | some s => some (s, freeLocs locations s end?)
    | none =>
      match locations with
      | [] => none
      | c :: rest => some (c, rest)
  match init with
  | none => none
  | some (start, unvisited) =>
    match nnSpecVisitFuel greedyL unvisited.length start unvisited with
    | none => none
    | some visits => evaluateRoute (nnAssemble start visits end? rts) distL durL

/-- Model of `itertools.combinations(l, r)` (as lists, in the same
lexicographic-by-index order). -/
def combinations : ℕ → List α → List (List α)
  | 0, _ => [[]]
  | _ + 1, [] => []
  | r + 1, x :: xs => ((combinations r xs).map (x :: ·)) ++ combinations (r + 1) xs

/-- The subset enumeration of
`solve_origin_destination_with_optional_stops_streamlit` (lines 863-867):
all combinations of the optional stops, for every size `r = 0 .. K`. -/
def allCombinations (l : List α) : List (List α) :=
  (List.range (l.length + 1)).flatMap fun r => combinations r l

/-- Python `round` on an exact rational: round half to even. -/
def pyRoundInt (q : ℚ) : ℤ :=
  if q - ⌊q⌋ = 1 / 2 then (if 2 ∣ ⌊q⌋ then ⌊q⌋ else ⌊q⌋ + 1) else round q

/-- Python `round(q, n)`. -/
def roundTo (n : ℕ) (q : ℚ) : ℚ := (pyRoundInt (q * 10 ^ n) : ℚ) / 10 ^ n

/-- One entry of the `route_rankings` list built at lines 905-927 (the
display-only `name` string is omitted). -/
structure RankEntry (α : Type) where
  rank : ℕ
  path : List α
  total_distance_km : ℚ
  total_duration_minutes : ℚ
  num_stops : ℕ
  stops_included : List α
  extra_distance_km : ℚ
  extra_duration_minutes : ℚ
deriving DecidableEq

/-- `all_routes.sort(key=lambda x: x[1].total_duration)` (line 895).
Python's list sort is stable; a stable ascending sort is insertion sort
on the non-strict key comparison. -/
def sortRoutes (rs : List (Route α × ℕ)) : List (Route α × ℕ) :=
  List.insertionSort (fun a b => a.1.total_duration ≤ b.1.total_duration) rs

/-- The baseline search of lines 898-902: the first entry of the sorted
list with `num_stops == 0`. -/
def findDirect (sorted : List (Route α × ℕ)) : Option (Route α) :=
  (sorted.find? fun x => x.2 = 0).map (·.1)

/-- One `route_data` dictionary of lines 907-925. -/
def mkRankEntry (direct? : Option (Route α)) (i : ℕ) (r : Route α) (k : ℕ) :
    RankEntry α where
  rank := i
  path := r.path
  total_distance_km := roundTo 2 r.total_distance
  total_duration_minutes := roundTo 1 r.total_duration
  num_stops := k
  stops_included := if 2 < r.path.length then r.path.tail.dropLast else []
  extra_distance_km :=
    match direct? with
    | some d => if 0 < k then roundTo 2 (r.total_distance - d.total_distance) else 0
    | none => 0
  extra_duration_minutes :=
    match direct? with
    | some d => if 0 < k then roundTo 1 (r.total_duration - d.total_duration) else 0
    | none => 0

/-- The ranking stage of
`solve_origin_destination_with_optional_stops_streamlit` (lines 894-927):
sort the solved `(route, num_stops)` pairs by total duration, locate the
direct (0-stop) baseline, and emit the 1-based ranked entries. -/
def rankRoutes (rs : List (Route α × ℕ)) : List (RankEntry α) :=
  let sorted := sortRoutes rs
  let direct? := findDirect sorted
  (sorted.enumFrom 1).map fun p => mkRankEntry direct? p.1 p.2.1 p.2.2

/-- The maximum of a list of rationals (`none` on the empty list). -/
def listMaxQ : List ℚ → Option ℚ
  | [] => none
  | x :: xs =>
    some (match listMaxQ xs with | none => x | some m => max x m)

/-- The `summary_stats` dictionary of lines 933-954.  The optional fields
are present only when a direct route exists. -/
structure SummaryStats where
  fastest_duration : ℚ
  fastest_distance : ℚ
  slowest_duration : ℚ
  slowest_distance : ℚ
  average_duration : ℚ
  average_distance : ℚ
  shortest_km : ℚ
  longest_km : ℚ
  direct_duration : Option ℚ
  direct_distance : Option ℚ
  max_extra_time : Option ℚ
  max_extra_distance : Option ℚ
deriving DecidableEq

/-- The success/failure dictionary returned by
`solve_origin_destination_with_optional_stops_streamlit`. -/
structure PipelineResult (α : Type) where
  success : Bool
  route_rankings : List (RankEntry α)
  summary : Option SummaryStats
  total_combinations : ℕ
deriving DecidableEq

/-- The matrix payload returned by the Matrix API (`durations` defaults to
the empty list when the key is absent, matching
`matrix_data.get('durations', {})`). -/
structure MatrixData where
  distances : List (List (Option ℚ))
  durations : List (List (Option ℚ))

/-- The external collaborators consumed by `solve_tsp`: the geocoder and
the matrix fetch.  A `none` matrix answer covers both a failed request and
a reply without a `distances` key (the source returns `None` in either
case, lines 357-359). -/
structure Api (α κ : Type) where
  geocode : α → Option κ
  matrix : List κ → Option MatrixData

/-- How many geocoding requests and matrix fetches a call performed. -/
structure ApiLog where
  geocodeCalls : ℕ
  matrixCalls : ℕ
deriving DecidableEq

instance : Add ApiLog := ⟨fun a b => ⟨a.geocodeCalls + b.geocodeCalls, a.matrixCalls + b.matrixCalls⟩⟩

/-- The cell `matrix[i][j]` guarded by
`i < len(matrix) and j < len(matrix[i])` (lines 373, 377): `none` when the
guard fails (the dictionary key is then never written), `some v` when the
cell holds `v` (itself possibly `None`). -/
def matrixCell (m : List (List (Option ℚ))) (i j : ℕ) : Option (Option ℚ) :=
  match m.get? i with
  | none => none
  | some row => row.get? j

/-- Overwrite one key of a dictionary row. -/
def updateKey (row : α → Option ℚ) (k : α) (v : Option ℚ) : α → Option ℚ :=
  fun b => if b = k then v else row b

/-- Overwrite one row of a dictionary of rows. -/
def setRow (f : Lookup α) (fromLoc : α) (row : α → Option ℚ) : Lookup α :=
  fun a b => if a = fromLoc then row b else f a b

/-- The lookup-building loop of `solve_tsp` (lines 365-380): kilometres are
metres over 1000, minutes are seconds over 60; a duration cell is only
written when the distance guard also passed and the durations matrix is
non-empty. -/
def buildLookups (valid : List α) (dm um : List (List (Option ℚ))) :
    Lookup α × Lookup α :=
  valid.enum.foldl
    (fun lk p =>
      let i := p.1
      let rows :=
        valid.enum.foldl
          (fun (rows : (α → Option ℚ) × (α → Option ℚ)) q =>
            let j := q.1
            match matrixCell dm i j with
            | none => rows
            | some v =>
              let rows1 := (updateKey rows.1 q.2 (v.map (· / 1000)), rows.2)
              if um ≠ [] then
                match matrixCell um i j with
                | none => rows1
                | some u => (rows1.1, updateKey rows1.2 q.2 (u.map (· / 60)))
              else rows1)
          (fun _ => none, fun _ => none)
      (setRow lk.1 p.2 rows.1, setRow lk.2 p.2 rows.2))
    (fun _ _ => none, fun _ _ => none)

/-- `start_location and start_location not in locations` (and likewise for
the end location). -/
def absentFrom (locations : List α) : Option α → Bool
  | some x => decide (x ∉ locations)
  | none => false

/-- Model of `TSPSolver.solve_tsp` (lines 302-398), with the number of
external calls made reported alongside the result.  Every location is
geocoded (one call each); the matrix is fetched once when at least two
locations geocoded successfully. -/
def solveTsp (api : Api α κ) (locations : List α)
    (start? end? : Option α) (rts : Bool) : Option (Route α) × ApiLog :=
  if locations.length < 2 then (none, ⟨0, 0⟩)
  else if absentFrom locations start? then (none, ⟨0, 0⟩)
  else if absentFrom locations end? then (none, ⟨0, 0⟩)
  else
    let geo := locations.map fun loc => (loc, api.geocode loc)
    let coordinates := geo.filterMap fun p => p.2
    let valid := (geo.filter fun p => p.2.isSome).map Prod.fst
    if valid.length < 2 then (none, ⟨locations.length, 0⟩)
    else
      match api.matrix coordinates with
      | none => (none, ⟨locations.length, 1⟩)
      | some md =>
        let lks := buildLookups valid md.distances md.durations
        (solveTspBruteForce valid lks.1 lks.2 start? end? rts,
         ⟨locations.length, 1⟩)

/-- One iteration of the per-combination solving loop of
`solve_origin_destination_with_optional_stops_streamlit` (lines 872-892):
solve the combination with the origin fixed as start, the destination as
end and no return leg, keeping the route when one was found. -/
def solveCombosStep (api : Api α κ) (origin destination : α)
    (acc : List (Route α × ℕ) × ApiLog) (combination : List α) :
    List (Route α × ℕ) × ApiLog :=
  let route_locations :=
    if combination.length = 0 then [origin, destination]
    else origin :: (combination ++ [destination])
  let r := solveTsp api route_locations (some origin) (some destination) false
  (match r.1 with
   | some route => acc.1 ++ [(route, combination.length)]
   | none => acc.1,
   acc.2 + r.2)

/-- The per-combination solving loop (lines 872-892), collecting the
solved routes in enumeration order. -/
def solveCombos (api : Api α κ) (origin destination : α)
    (combos : List (List α)) : List (Route α × ℕ) × ApiLog :=
  combos.foldl (solveCombosStep api origin destination) ([], ⟨0, 0⟩)

/-- The `summary_stats` computation of lines 929-954, over the sorted
route list (the in-place sort of line 895 happens before this point).
Only called with a non-empty list; the `headI`/`getLastI`-style defaults
are unreachable there. -/
def mkSummary (sorted : List (Route α × ℕ)) (direct? : Option (Route α)) :
    SummaryStats :=
  let durations := sorted.map fun x => x.1.total_duration
  let distances := sorted.map fun x => x.1.total_distance
  let first := (sorted.head?.map Prod.fst).getD ⟨[], 0, 0⟩
  let last := (sorted.getLast?.map Prod.fst).getD ⟨[], 0, 0⟩
  { fastest_duration := roundTo 1 first.total_duration
    fastest_distance := roundTo 2 first.total_distance
    slowest_duration := roundTo 1 last.total_duration
    slowest_distance := roundTo 2 last.total_distance
    average_duration := roundTo 1 (durations.sum / durations.length)
    average_distance := roundTo 2 (distances.sum / distances.length)
    shortest_km := roundTo 2 ((listMinQ distances).getD 0)
    longest_km := roundTo 2 ((listMaxQ distances).getD 0)
    direct_duration := direct?.map fun d => roundTo 1 d.total_duration
    direct_distance := direct?.map fun d => roundTo 2 d.total_distance
    max_extra_time := direct?.map fun d =>
      roundTo 1 (((listMaxQ durations).getD 0) - d.total_duration)
    max_extra_distance := direct?.map fun d =>
      roundTo 2 (((listMaxQ distances).getD 0) - d.total_distance) }

/-- Model of `solve_origin_destination_with_optional_stops_streamlit`
(lines 844-978).  When no combination is solvable, `all_routes[0]` raises
an `IndexError` in the source, caught by the blanket handler which returns
a failure dictionary; that is the `success := false` branch here. -/
def solvePipeline (api : Api α κ) (origin destination : α)
    (optional_stops : List α) : PipelineResult α × ApiLog :=
  let combos := allCombinations optional_stops
  let solved := solveCombos api origin destination combos
  let all_routes := solved.1
  if all_routes.isEmpty then
    ({ success := false
       route_rankings := []
       summary := none
       total_combinations := combos.length }, solved.2)
  else
    let sorted := sortRoutes all_routes
    let direct? := findDirect sorted
    ({ success := true
       route_rankings := rankRoutes all_routes
       summary := some (mkSummary sorted direct?)
       total_combinations := combos.length }, solved.2)

/-- Outcome of the add-stop handler in the UI. -/
inductive AddStopOutcome (α : Type) where
  | added (stops : List α)
  | maxReached
  | emptyInput
deriving DecidableEq

/-- Model of the add-stop handler of `app.py` (lines 139-152): a new stop
is appended only when the input is non-empty (`none` models an empty text
field) and fewer than 10 stops are present; with 10 or more stops the
handler reports "Maximum 10 stops allowed!". -/
def addStop (stops : List α) (new? : Option α) : AddStopOutcome α :=
  match new? with
  | some s =>
    if stops.length < 10 then .added (stops ++ [s]) else .maxReached
  | none =>
    if 10 ≤ stops.length then .maxReached else .emptyInput

/-! ### Concrete fixtures

Small concrete lookup tables and oracles (over `ℕ`-named locations) used
by the counterexample and witness theorems below. -/

/-- Distances: `0→1 = 1`, `1→2 = 1`, `0→2 = 10`, `2→1 = 10`. -/
def cxDistA : Lookup ℕ := fun a b =>
  some (if a = 0 ∧ b = 1 then 1 else if a = 1 ∧ b = 2 then 1
        else if a = 0 ∧ b = 2 then 10 else if a = 2 ∧ b = 1 then 10 else 0)

/-- Durations: `0→1 = 100`, `1→2 = 100`, `0→2 = 1`, `2→1 = 1`. -/
def cxDurA : Lookup ℕ := fun a b =>
  some (if a = 0 ∧ b = 1 then 100 else if a = 1 ∧ b = 2 then 100
        else if a = 0 ∧ b = 2 then 1 else if a = 2 ∧ b = 1 then 1 else 0)

/-- Distances on `{0,1,2,3}` making `0→1→2→3` the shortest. -/
def cxDistB : Lookup ℕ := fun a b =>
  some (if a = 0 ∧ b = 1 then 1 else if a = 1 ∧ b = 2 then 1
        else if a = 2 ∧ b = 3 then 1 else if a = 0 ∧ b = 2 then 5
        else if a = 2 ∧ b = 1 then 5 else if a = 1 ∧ b = 3 then 5 else 0)

/-- Durations on `{0,1,2,3}` making `0→2→1→3` the fastest. -/
def cxDurB : Lookup ℕ := fun a b =>
  some (if a = 0 ∧ b = 1 then 10 else if a = 1 ∧ b = 2 then 10
        else if a = 2 ∧ b = 3 then 10 else if a = 0 ∧ b = 2 then 1
        else if a = 2 ∧ b = 1 then 1 else if a = 1 ∧ b = 3 then 1 else 0)

/-- Distances: `0→1 = 1`, `0→2 = 2`, `1→2 = 1`. -/
def cxDistC : Lookup ℕ := fun a b =>
  some (if a = 0 ∧ b = 1 then 1 else if a = 0 ∧ b = 2 then 2
        else if a = 1 ∧ b = 2 then 1 else 0)

/-- Durations: `0→1 = 10`, `0→2 = 1`, `1→2 = 2`, `2→1 = 2`. -/
def cxDurC : Lookup ℕ := fun a b =>
  some (if a = 0 ∧ b = 1 then 10 else if a = 0 ∧ b = 2 then 1
        else if a = 1 ∧ b = 2 then 2 else if a = 2 ∧ b = 1 then 2 else 0)

/-- The constant lookup: every pair one unit apart. -/
def cxOne : Lookup ℕ := fun _ _ => some 1

/-- Distances with the duration entry for `0→1` missing. -/
def cxDurMissing : Lookup ℕ := fun a b =>
  if a = 0 ∧ b = 1 then none else some 5

/-- Raw matrix distances (metres) for the ranking pipeline fixture. -/
def cxRawDist : ℕ → ℕ → ℚ := fun a b =>
  1000 * (if a = 0 ∧ b = 1 then 5 else if a = 0 ∧ b = 2 then 4
   else if a = 2 ∧ b = 1 then 5 else if a = 0 ∧ b = 3 then 3
   else if a = 3 ∧ b = 1 then 4 else if a = 2 ∧ b = 3 then 2
   else if a = 3 ∧ b = 2 then 3 else 1)

/-- Raw matrix durations (seconds) for the ranking pipeline fixture: the
one-stop routes via `2` and via `3` have the same 50-minute duration, but
the route via `3` (enumerated later) is shorter. -/
def cxRawDur : ℕ → ℕ → ℚ := fun a b =>
  60 * (if a = 0 ∧ b = 1 then 40 else if a = 0 ∧ b = 2 then 20
   else if a = 2 ∧ b = 1 then 30 else if a = 0 ∧ b = 3 then 25
   else if a = 3 ∧ b = 1 then 25 else if a = 2 ∧ b = 3 then 10
   else if a = 3 ∧ b = 2 then 10 else 1)

/-- An API oracle that geocodes every name to itself and answers every
matrix request from `cxRawDist`/`cxRawDur`. -/
def cxApiRank : Api ℕ ℕ :=
  ⟨fun a => some a,
   fun cs => some ⟨cs.map fun a => cs.map fun b => some (cxRawDist a b),
                   cs.map fun a => cs.map fun b => some (cxRawDur a b)⟩⟩

/-- An API oracle whose geocoder and matrix fetch always fail. -/
def cxApiDown : Api ℕ ℕ := ⟨fun _ => none, fun _ => none⟩

/-- Eleven optional stops (one more than the UI cap of ten). -/
def cxElevenStops : List ℕ := [2, 3, 4, 5, 6, 7, 8, 9, 10, 11, 12]

/-- Two solved routes whose one-stop route is faster than the direct
baseline (so its extras are negative). -/
def cxRoutesNeg : List (Route ℕ × ℕ) :=
  [(⟨[0, 1], 5, 40⟩, 0), (⟨[0, 2, 1], 3, 30⟩, 1)]

/-!
## Theorems

### `_evaluate_route` (claim C5)
-/

theorem sumLegs_isSome_iff (distL durL : Lookup α) (L : List (α × α)) :
    (sumLegs distL durL L).isSome ↔ ∀ p ∈ L, (distL p.1 p.2).isSome := by
  induction L with
  | nil => simp [sumLegs]
  | cons q rest ih =>
    obtain ⟨f, t⟩ := q
    simp only [sumLegs]
    cases hd : distL f t with
    | none => simp [hd]
    | some d =>
      cases hr : sumLegs distL durL rest with
      | none =>
        simp only [hr, Option.isSome_none, Bool.false_eq_true, false_iff] at ih ⊢
        push_neg at ih ⊢
        obtain ⟨p, hp, hnone⟩ := ih
        exact ⟨p, by simp [hp], hnone⟩
      | some v =>
        obtain ⟨D, T⟩ := v
        simp only [hr, Option.isSome_some, true_iff] at ih
        simp only [Option.isSome_some, true_iff]
        intro p hp
        rcases List.mem_cons.1 hp with h | h
        · subst h; simp [hd]
        · exact ih p h

theorem sumLegs_eq_of_all_some (distL durL : Lookup α) (L : List (α × α))
    (h : ∀ p ∈ L, (distL p.1 p.2).isSome) :
    sumLegs distL durL L =
      some ((L.map fun p => (distL p.1 p.2).getD 0).sum,
            (L.map (durOrZero durL)).sum) := by
  induction L with
  | nil => simp [sumLegs]
  | cons q rest ih =>
    obtain ⟨f, t⟩ := q
    have hq : (distL f t).isSome := h (f, t) (List.mem_cons_self _ _)
    obtain ⟨d, hd⟩ := Option.isSome_iff_exists.1 hq
    have hrest := ih fun p hp => h p (List.mem_cons_of_mem _ hp)
    simp [sumLegs, hd, hrest, durOrZero]

/-- C5 (amended): route construction fails exactly when the path is shorter
than two entries or some consecutive pair has no **distance** entry; a
missing **duration** entry does not fail the route but contributes zero to
its total duration; otherwise the totals are the sums of the
consecutive-pair lookups (missing durations counted as zero). -/
theorem evaluateRoute_spec (distL durL : Lookup α) (path : List α) :
    (path.length < 2 → evaluateRoute path distL durL = none) ∧
    ((∃ p ∈ routeLegs path, distL p.1 p.2 = none) →
      evaluateRoute path distL durL = none) ∧
    (2 ≤ path.length → (∀ p ∈ routeLegs path, (distL p.1 p.2).isSome) →
      evaluateRoute path distL durL =
        some ⟨path, ((routeLegs path).map fun p => (distL p.1 p.2).getD 0).sum,
              ((routeLegs path).map (durOrZero durL)).sum⟩) := by
  refine ⟨fun h => by simp [evaluateRoute, h], fun h => ?_, fun h hall => ?_⟩
  · by_cases hl : path.length < 2
    · simp [evaluateRoute, hl]
    · obtain ⟨p, hp, hnone⟩ := h
      have : ¬ (sumLegs distL durL (routeLegs path)).isSome := by
        rw [sumLegs_isSome_iff]
        push_neg
        exact ⟨p, hp, by simp [hnone]⟩
      rw [Option.not_isSome_iff_eq_none] at this
      simp [evaluateRoute, hl, this]
  · have hl : ¬ path.length < 2 := Nat.not_lt.2 h
    simp [evaluateRoute, hl, sumLegs_eq_of_all_some distL durL _ hall]

theorem evaluateRoute_spec_witness :
    (2 ≤ ([0, 1, 2] : List ℕ).length ∧
      ∀ p ∈ routeLegs ([0, 1, 2] : List ℕ), (cxOne p.1 p.2).isSome) ∧
    evaluateRoute ([0, 1, 2] : List ℕ) cxOne cxOne = some ⟨[0, 1, 2], 2, 2⟩ := by
  refine ⟨⟨by decide, by decide⟩, ?_⟩
  rw [(evaluateRoute_spec cxOne cxOne [0, 1, 2]).2.2 (by decide) (by decide)]
  with_unfolding_all decide

/-- C5 (counterexample to the claim as stated): a consecutive pair
(`0 → 1`) has no duration entry, yet route construction succeeds — the
missing duration is treated as zero rather than invalidating the route. -/
theorem evaluateRoute_missing_duration_cx :
    cxDurMissing 0 1 = none ∧
    evaluateRoute ([0, 1, 2] : List ℕ) cxOne cxDurMissing =
      some ⟨[0, 1, 2], 2, 5⟩ := by
  constructor
  · with_unfolding_all decide
  · with_unfolding_all decide

/-!
### `solve_tsp` input validation (claim C10)
-/

/-- C10: with fewer than two locations, or a start or end location that is
not a member of the location list, `solve_tsp` returns no route and
performs no geocoding and no matrix fetch. -/
theorem solveTsp_invalid_input (api : Api α κ) (locations : List α)
    (start? end? : Option α) (rts : Bool)
    (h : locations.length < 2 ∨ (∃ s, start? = some s ∧ s ∉ locations) ∨
      (∃ e, end? = some e ∧ e ∉ locations)) :
    solveTsp api locations start? end? rts = (none, ⟨0, 0⟩) := by
  rcases h with h | ⟨s, hs, hmem⟩ | ⟨e, he, hmem⟩
  · simp [solveTsp, h]
  · have habs : absentFrom locations start? = true := by
      simp [absentFrom, hs, hmem]
    by_cases hl : locations.length < 2
    · simp [solveTsp, hl]
    · simp [solveTsp, hl, habs]
  · have habs : absentFrom locations end? = true := by
      simp [absentFrom, he, hmem]
    by_cases hl : locations.length < 2
    · simp [solveTsp, hl]
    · by_cases hstart : absentFrom locations start? = true
      · simp [solveTsp, hl, hstart]
      · simp [solveTsp, hl, hstart, habs]

theorem solveTsp_invalid_input_witness :
    (([0, 1] : List ℕ).length < 2 ∨
      (∃ s, (some 5 : Option ℕ) = some s ∧ s ∉ ([0, 1] : List ℕ)) ∨
      (∃ e, (none : Option ℕ) = some e ∧ e ∉ ([0, 1] : List ℕ))) ∧
    solveTsp cxApiDown [0, 1] (some 5) none true = (none, ⟨0, 0⟩) :=
  ⟨Or.inr (Or.inl ⟨5, rfl, by decide⟩),
   solveTsp_invalid_input cxApiDown [0, 1] (some 5) none true
     (Or.inr (Or.inl ⟨5, rfl, by decide⟩))⟩

/-!
### The UI stop cap (claim C6, amended side)
-/

/-- C6 (amended): the optimization request function itself performs no
capacity check (see `solveCombos_eleven_stops_geocodes_cx`); the cap of
ten is enforced by the UI's add-stop handler, which refuses to grow the
stop list once ten stops are present. -/
theorem addStop_caps_at_ten (stops : List α) (new? : Option α)
    (h : 10 ≤ stops.length) : addStop stops new? = .maxReached := by
  cases new? with
  | some s => simp [addStop, Nat.not_lt.2 h]
  | none => simp [addStop, h]

theorem addStop_caps_at_ten_witness :
    10 ≤ ([0, 1, 2, 3, 4, 5, 6, 7, 8, 9] : List ℕ).length ∧
    addStop ([0, 1, 2, 3, 4, 5, 6, 7, 8, 9] : List ℕ) (some 99) = .maxReached :=
  ⟨by decide, addStop_caps_at_ten _ _ (by decide)⟩

/-!
### Closed counterexamples for the solver claims
-/

/-- C1 (counterexample to the claim as stated): on a three-location
instance the brute-force solver returns the ordering `0 → 1 → 2` with
total duration 200, although the valid ordering `0 → 2 → 1` has total
duration 2 — the returned route's `total_duration` is not minimal among
the valid orderings (the source minimises `total_distance` instead). -/
theorem bruteForce_not_duration_minimal_cx :
    (solveTspBruteForce [0, 1, 2] cxDistA cxDurA (some 0) none false).map
        Route.total_duration = some 200 ∧
    minDurationOfOrderings [0, 1, 2] cxDistA cxDurA (some 0) none false = some 2 ∧
    (2 : ℚ) < 200 := by
  refine ⟨?_, ?_, by norm_num⟩
  · with_unfolding_all decide
  · with_unfolding_all decide

/-- C2 (counterexample to the claim as stated): the brute-force strategy
(minimising distance) and the spec-modelled dynamic-programming strategy
(minimising duration) both solve the same four-location instance but
return routes with different `total_duration` (30 versus 3). -/
theorem heldKarp_bruteForce_duration_mismatch_cx :
    (solveTspBruteForce [0, 1, 2, 3] cxDistB cxDurB (some 0) (some 3) false).map
        Route.total_duration = some 30 ∧
    (solveTspHeldKarp [0, 1, 2, 3] cxDistB cxDurB (some 0) (some 3) false).map
        Route.total_duration = some 3 ∧
    (30 : ℚ) ≠ 3 := by
  refine ⟨?_, ?_, by norm_num⟩
  · with_unfolding_all decide
  · with_unfolding_all decide

/-- C7 (counterexample to the claim as stated): the heuristic visits `1`
first (distance 1 from the start) although `2` has the strictly smaller
duration from the start (1 versus 10) — it is greedy in **distance**, not
in duration as claimed; the duration-greedy procedure stated by the claim
would produce `0 → 2 → 1`. -/
theorem nearestNeighbor_duration_greedy_cx :
    (solveTspNearestNeighbor [0, 1, 2] cxDistC cxDurC (some 0) none false).map
        Route.path = some [0, 1, 2] ∧
    (solveTspNearestNeighborSpec cxDurC [0, 1, 2] cxDistC cxDurC
        (some 0) none false).map Route.path = some [0, 2, 1] ∧
    ([0, 1, 2] : List ℕ) ≠ [0, 2, 1] := by
  refine ⟨?_, ?_, by decide⟩
  · with_unfolding_all decide
  · with_unfolding_all decide

/-- C9 (counterexample to the claim as stated): with a duplicated location
name, no fixed start and `return_to_start` set, the heuristic's route
(duration 1, no closing leg: its path already ends at its first element)
is strictly **better** than the minimal duration over the orderings the
exact search enumerates (duration 2, with the closing leg). -/
theorem nearestNeighbor_beats_optimum_cx :
    (solveTspNearestNeighbor [5, 5] cxOne cxOne none none true).map
        Route.total_duration = some 1 ∧
    minDurationOfOrderings [5, 5] cxOne cxOne none none true = some 2 ∧
    ¬ (2 : ℚ) ≤ 1 := by
  refine ⟨?_, ?_, by norm_num⟩
  · with_unfolding_all decide
  · with_unfolding_all decide

/-!
### No capacity check in the optimization request (claim C6)
-/

theorem apiLog_add_geocodeCalls (a b : ApiLog) :
    (a + b).geocodeCalls = a.geocodeCalls + b.geocodeCalls := rfl

theorem solveCombosStep_geo_le (api : Api α κ) (o d : α)
    (acc : List (Route α × ℕ) × ApiLog) (c : List α) :
    acc.2.geocodeCalls ≤ (solveCombosStep api o d acc c).2.geocodeCalls := by
  simp only [solveCombosStep, apiLog_add_geocodeCalls]
  exact Nat.le_add_right _ _

theorem solveCombos_foldl_geo_mono (api : Api α κ) (o d : α) :
    ∀ (combos : List (List α)) (acc : List (Route α × ℕ) × ApiLog),
      acc.2.geocodeCalls ≤
        (combos.foldl (solveCombosStep api o d) acc).2.geocodeCalls := by
  intro combos
  induction combos with
  | nil => intro acc; exact le_rfl
  | cons c cs ih =>
    intro acc
    calc acc.2.geocodeCalls ≤ (solveCombosStep api o d acc c).2.geocodeCalls :=
          solveCombosStep_geo_le api o d acc c
      _ ≤ _ := ih _

theorem allCombinations_eq_nil_cons (l : List α) :
    allCombinations l = [] :: (List.range' 1 l.length).flatMap
      fun r => combinations r l := by
  have h : List.range (l.length + 1) = 0 :: List.range' 1 l.length := by
    rw [List.range_eq_range']
    rfl
  simp [allCombinations, h, combinations]

/-- C6 (counterexample to the claim as stated): a request with eleven
optional stops (one more than the claimed cap) is **not** rejected before
external work starts: the optimization function performs geocoding calls
(at least the two for the direct origin-destination combination).  No
capacity check exists in the request path. -/
theorem pipeline_eleven_stops_geocodes_cx :
    cxElevenStops.length = 11 ∧
    0 < (solvePipeline cxApiDown 0 1 cxElevenStops).2.geocodeCalls := by
  refine ⟨by decide, ?_⟩
  have hlog : (solvePipeline cxApiDown 0 1 cxElevenStops).2 =
      (solveCombos cxApiDown 0 1 (allCombinations cxElevenStops)).2 := by
    simp only [solvePipeline]
    by_cases h : (solveCombos cxApiDown 0 1 (allCombinations cxElevenStops)).1.isEmpty <;>
      simp [h]
  rw [hlog, solveCombos, allCombinations_eq_nil_cons, List.foldl_cons]
  have hfirst :
      (solveCombosStep cxApiDown 0 1 ([], ⟨0, 0⟩) []).2.geocodeCalls = 2 := by
    with_unfolding_all decide
  calc (0 : ℕ) < 2 := by norm_num
    _ = (solveCombosStep cxApiDown 0 1 ([], ⟨0, 0⟩) []).2.geocodeCalls := hfirst.symm
    _ ≤ _ := solveCombos_foldl_geo_mono cxApiDown 0 1 _ _

/-!
### Subset enumeration (claim C3)
-/

theorem mem_combinations {r : ℕ} {l s : List α} :
    s ∈ combinations r l ↔ s.Sublist l ∧ s.length = r := by
  induction l generalizing r s with
  | nil =>
    cases r with
    | zero =>
      simp only [combinations, List.mem_singleton]
      constructor
      · rintro rfl; exact ⟨List.Sublist.refl _, rfl⟩
      · rintro ⟨hs, hl⟩; exact List.eq_nil_of_length_eq_zero hl
    | succ r =>
      simp only [combinations, List.not_mem_nil, false_iff, not_and]
      intro hs
      rw [List.sublist_nil.1 hs]
      simp
  | cons x xs ih =>
    cases r with
    | zero =>
      simp only [combinations, List.mem_singleton]
      constructor
      · rintro rfl; exact ⟨List.nil_sublist _, rfl⟩
      · rintro ⟨hs, hl⟩; exact List.eq_nil_of_length_eq_zero hl
    | succ r =>
      simp only [combinations, List.mem_append, List.mem_map]
      rw [List.sublist_cons_iff]
      constructor
      · rintro (⟨t, ht, rfl⟩ | hmem)
        · obtain ⟨hsub, hlen⟩ := ih.1 ht
          exact ⟨Or.inr ⟨t, rfl, hsub⟩, by simp [hlen]⟩
        · obtain ⟨hsub, hlen⟩ := ih.1 hmem
          exact ⟨Or.inl hsub, hlen⟩
      · rintro ⟨hsub | ⟨t, rfl, htsub⟩, hlen⟩
        · exact Or.inr (ih.2 ⟨hsub, hlen⟩)
        · exact Or.inl ⟨t, ih.2 ⟨htsub, by simpa using hlen⟩, rfl⟩

theorem length_combinations (r : ℕ) (l : List α) :
    (combinations r l).length = l.length.choose r := by
  induction l generalizing r with
  | nil => cases r <;> simp [combinations]
  | cons x xs ih =>
    cases r with
    | zero => simp [combinations]
    | succ r =>
      simp [combinations, ih, Nat.choose_succ_succ, Nat.add_comm]

theorem nodup_combinations {r : ℕ} {l : List α} (h : l.Nodup) :
    (combinations r l).Nodup := by
  induction l generalizing r with
  | nil => cases r <;> simp [combinations]
  | cons x xs ih =>
    have hx : x ∉ xs := (List.nodup_cons.1 h).1
    have hxs : xs.Nodup := (List.nodup_cons.1 h).2
    cases r with
    | zero => simp [combinations]
    | succ r =>
      refine List.Nodup.append ((ih hxs).map ?_) (ih hxs) ?_
      · intro a b hab
        exact List.tail_eq_of_cons_eq hab
      · intro s hs hs2
        obtain ⟨t, _, rfl⟩ := List.mem_map.1 hs
        have hsub := (mem_combinations.1 hs2).1
        exact hx (hsub.subset (List.mem_cons_self _ _))

theorem list_sum_map_range (f : ℕ → ℕ) :
    ∀ n : ℕ, ((List.range n).map f).sum = ∑ i ∈ Finset.range n, f i := by
  intro n
  induction n with
  | zero => simp
  | succ n ih => simp [List.range_succ, Finset.sum_range_succ, ih]

/-- C3: for a duplicate-free list of `K` optional stops, the subset
enumeration produces exactly `2 ^ K` subsets, among them the empty subset,
each an order-preserving subsequence of the input, with no duplicate
subsets, and in non-decreasing order of subset size. -/
theorem allCombinations_spec (l : List α) (hnd : l.Nodup) :
    (allCombinations l).length = 2 ^ l.length ∧
    [] ∈ allCombinations l ∧
    (∀ s ∈ allCombinations l, s.Sublist l) ∧
    (allCombinations l).Nodup ∧
    List.Sorted (· ≤ ·) ((allCombinations l).map List.length) := by
  refine ⟨?_, ?_, ?_, ?_, ?_⟩
  · rw [allCombinations, List.length_flatMap]
    have h1 : ((List.range (l.length + 1)).map fun r => (combinations r l).length)
        = (List.range (l.length + 1)).map fun r => l.length.choose r := by
      simp [length_combinations]
    simp only [Function.comp_def, h1]
    rw [list_sum_map_range]
    exact Nat.sum_range_choose l.length
  · rw [allCombinations_eq_nil_cons]
    exact List.mem_cons_self _ _
  · intro s hs
    obtain ⟨r, _, hr⟩ := List.mem_flatMap.1 hs
    exact (mem_combinations.1 hr).1
  · rw [allCombinations, List.nodup_flatMap]
    refine ⟨fun r _ => nodup_combinations hnd, ?_⟩
    have := List.pairwise_lt_range (l.length + 1)
    refine this.imp ?_
    intro a b hab
    intro s hsa hsb
    have ha := (mem_combinations.1 hsa).2
    have hb := (mem_combinations.1 hsb).2
    omega
  · rw [allCombinations, List.map_flatMap, List.Sorted, List.pairwise_flatMap]
    constructor
    · intro r _
      rw [List.pairwise_map, List.pairwise_iff_forall_sublist]
      intro a b hsub
      have ha := (mem_combinations.1 (hsub.subset (List.mem_cons_self _ _))).2
      have hb := (mem_combinations.1
        (hsub.subset (List.mem_cons_of_mem _ (List.mem_singleton_self _)))).2
      omega
    · have := List.pairwise_lt_range (l.length + 1)
      refine this.imp ?_
      intro a b hab
      intro x hxa y hyb
      obtain ⟨s, hs, rfl⟩ := List.mem_map.1 hxa
      obtain ⟨t, ht, rfl⟩ := List.mem_map.1 hyb
      have ha := (mem_combinations.1 hs).2
      have hb := (mem_combinations.1 ht).2
      omega

theorem allCombinations_spec_witness :
    ([0, 1, 2] : List ℕ).Nodup ∧
    ((allCombinations ([0, 1, 2] : List ℕ)).length = 2 ^ 3 ∧
      [] ∈ allCombinations ([0, 1, 2] : List ℕ) ∧
      (allCombinations ([0, 1, 2] : List ℕ)).Nodup) := by
  have h := allCombinations_spec ([0, 1, 2] : List ℕ) (by decide)
  exact ⟨by decide, h.1, h.2.1, h.2.2.2.1⟩

/-!
### The ranked report (claims C4 and C8)
-/

theorem filter_orderedInsert_dur_eq (d : ℚ) (a : Route α × ℕ)
    (l : List (Route α × ℕ)) (ha : a.1.total_duration = d) :
    (List.orderedInsert (fun x y => x.1.total_duration ≤ y.1.total_duration) a l).filter
        (fun x => decide (x.1.total_duration = d)) =
      a :: l.filter (fun x => decide (x.1.total_duration = d)) := by
  induction l with
  | nil => simp [List.orderedInsert, ha]
  | cons b t ih =>
    by_cases hr : a.1.total_duration ≤ b.1.total_duration
    · rw [List.orderedInsert, if_pos hr, List.filter_cons, if_pos (by simp [ha])]
    · have hbd : ¬ b.1.total_duration = d := by
        intro hb
        exact hr (by rw [ha, ← hb])
      rw [List.orderedInsert, if_neg hr, List.filter_cons, if_neg (by simp [hbd]),
        ih, List.filter_cons, if_neg (by simp [hbd])]

theorem filter_orderedInsert_dur_ne (d : ℚ) (a : Route α × ℕ)
    (l : List (Route α × ℕ)) (ha : ¬ a.1.total_duration = d) :
    (List.orderedInsert (fun x y => x.1.total_duration ≤ y.1.total_duration) a l).filter
        (fun x => decide (x.1.total_duration = d)) =
      l.filter (fun x => decide (x.1.total_duration = d)) := by
  induction l with
  | nil => simp [List.orderedInsert, ha]
  | cons b t ih =>
    by_cases hr : a.1.total_duration ≤ b.1.total_duration
    · rw [List.orderedInsert, if_pos hr, List.filter_cons, if_neg (by simp [ha])]
    · rw [List.orderedInsert, if_neg hr, List.filter_cons, ih, List.filter_cons]

/-- C4 (amended): the ranked report is sorted by `total_duration`
ascending, is a permutation of the solved routes, keeps routes of equal
duration in their original enumeration order (Python's sort is stable:
entries of any fixed duration are exactly the input entries of that
duration, in input order), the entries follow that sorted order, and the
assigned ranks are exactly `1..N`.  There is **no** tie-break by distance
or by stop count. -/
theorem ranking_sorted_spec (rs : List (Route α × ℕ)) :
    List.Sorted (fun a b => a.1.total_duration ≤ b.1.total_duration) (sortRoutes rs) ∧
    List.Perm (sortRoutes rs) rs ∧
    (∀ d : ℚ, (sortRoutes rs).filter (fun x => decide (x.1.total_duration = d)) =
      rs.filter (fun x => decide (x.1.total_duration = d))) ∧
    (rankRoutes rs).map RankEntry.rank = List.range' 1 rs.length ∧
    (rankRoutes rs).map RankEntry.path = (sortRoutes rs).map fun x => x.1.path := by
  haveI : IsTotal (Route α × ℕ) (fun a b => a.1.total_duration ≤ b.1.total_duration) :=
    ⟨fun a b => le_total _ _⟩
  haveI : IsTrans (Route α × ℕ) (fun a b => a.1.total_duration ≤ b.1.total_duration) :=
    ⟨fun _ _ _ => le_trans⟩
  refine ⟨List.sorted_insertionSort _ _, List.perm_insertionSort _ _, ?_, ?_, ?_⟩
  · intro d
    induction rs with
    | nil => rfl
    | cons x t ih =>
      show (List.orderedInsert _ x (sortRoutes t)).filter _ = _
      by_cases hx : x.1.total_duration = d
      · rw [filter_orderedInsert_dur_eq d x _ hx, ih, List.filter_cons, if_pos (by simp [hx])]
      · rw [filter_orderedInsert_dur_ne d x _ hx, ih, List.filter_cons, if_neg (by simp [hx])]
  · have hlen : (sortRoutes rs).length = rs.length :=
      (List.perm_insertionSort
        (fun a b : Route α × ℕ => a.1.total_duration ≤ b.1.total_duration) rs).length_eq
    simp only [rankRoutes]
    rw [List.map_map]
    rw [show (RankEntry.rank ∘ fun p : ℕ × (Route α × ℕ) =>
        mkRankEntry (findDirect (sortRoutes rs)) p.1 p.2.1 p.2.2) = Prod.fst from rfl]
    rw [List.enumFrom_map_fst, hlen]
  · simp only [rankRoutes]
    rw [List.map_map]
    rw [show (RankEntry.path ∘ fun p : ℕ × (Route α × ℕ) =>
        mkRankEntry (findDirect (sortRoutes rs)) p.1 p.2.1 p.2.2) =
        ((fun x : Route α × ℕ => x.1.path) ∘ Prod.snd) from rfl]
    rw [← List.map_map, List.enumFrom_map_snd]

theorem mem_eq_of_filter_length_le_one {β : Type} {l : List β} {p : β → Bool}
    (h : (l.filter p).length ≤ 1) {a b : β}
    (ha : a ∈ l) (hpa : p a) (hb : b ∈ l) (hpb : p b) : a = b := by
  have ha2 : a ∈ l.filter p := List.mem_filter.2 ⟨ha, hpa⟩
  have hb2 : b ∈ l.filter p := List.mem_filter.2 ⟨hb, hpb⟩
  match hl : l.filter p with
  | [] => rw [hl] at ha2; cases ha2
  | [x] =>
    rw [hl] at ha2 hb2
    simp only [List.mem_singleton] at ha2 hb2
    rw [ha2, hb2]
  | x :: y :: t => rw [hl] at h; simp at h

/-- C8: in the ranked report, when a zero-stop baseline route exists it is
the route of the (unique) zero-stop entry, that entry's extras are zero,
and every other entry's extras are the rounded **signed** differences of
its route's totals and the baseline's totals (negative values are passed
through, never clamped); when no zero-stop route was solved, every entry's
extras are zero. -/
theorem ranking_extras_signed (rs : List (Route α × ℕ))
    (huniq : (rs.filter fun x => decide (x.2 = 0)).length ≤ 1) :
    match findDirect (sortRoutes rs) with
    | some dr =>
        ∀ (i : ℕ) (e : RankEntry α), (rankRoutes rs)[i]? = some e →
          ∃ rk : Route α × ℕ, (sortRoutes rs)[i]? = some rk ∧ e.num_stops = rk.2 ∧
            (rk.2 = 0 → rk.1 = dr ∧
              e.extra_duration_minutes = 0 ∧ e.extra_distance_km = 0) ∧
            (0 < rk.2 →
              e.extra_duration_minutes =
                roundTo 1 (rk.1.total_duration - dr.total_duration) ∧
              e.extra_distance_km =
                roundTo 2 (rk.1.total_distance - dr.total_distance))
    | none =>
        (∀ x ∈ rs, x.2 ≠ 0) ∧
        ∀ e ∈ rankRoutes rs,
          e.extra_duration_minutes = 0 ∧ e.extra_distance_km = 0 := by
  have hperm : List.Perm (sortRoutes rs) rs := List.perm_insertionSort _ _
  cases hfd : findDirect (sortRoutes rs) with
  | none =>
    have hnone : (sortRoutes rs).find? (fun x => decide (x.2 = 0)) = none := by
      unfold findDirect at hfd
      cases hfind : (sortRoutes rs).find? (fun x => decide (x.2 = 0)) with
      | none => rfl
      | some f => rw [hfind] at hfd; cases hfd
    refine ⟨?_, ?_⟩
    · intro x hx hx0
      have hmem : x ∈ sortRoutes rs := hperm.mem_iff.2 hx
      have := List.find?_eq_none.1 hnone x hmem
      simp [hx0] at this
    · intro e he
      simp only [rankRoutes, List.mem_map] at he
      obtain ⟨p, _, rfl⟩ := he
      rw [hfd]
      exact ⟨rfl, rfl⟩
  | some dr =>
    intro i e he
    simp only [rankRoutes, List.getElem?_map, List.getElem?_enumFrom] at he
    cases hrk : (sortRoutes rs)[i]? with
    | none => rw [hrk] at he; cases he
    | some rk =>
      rw [hrk] at he
      simp only [Option.map_some', Option.some_inj] at he
      refine ⟨rk, rfl, ?_, ?_, ?_⟩
      · rw [← he, hfd]; rfl
      · intro hk0
        obtain ⟨f, hfind, hf1⟩ := by
          unfold findDirect at hfd
          exact Option.map_eq_some'.1 hfd
        have hpf : f.2 = 0 := by
          have := List.find?_some hfind
          simpa using this
        have hfmem : f ∈ rs := hperm.mem_iff.1 (List.mem_of_find?_eq_some hfind)
        have hrkmem : rk ∈ rs := hperm.mem_iff.1 (List.getElem?_mem hrk)
        have : rk = f := mem_eq_of_filter_length_le_one huniq hrkmem
          (by simp [hk0]) hfmem (by simp [hpf])
        refine ⟨by rw [this, hf1], ?_, ?_⟩
        · rw [← he, hfd]; simp [mkRankEntry, hk0]
        · rw [← he, hfd]; simp [mkRankEntry, hk0]
      · intro hkpos
        constructor
        · rw [← he, hfd]; simp [mkRankEntry, hkpos]
        · rw [← he, hfd]; simp [mkRankEntry, hkpos]

theorem ranking_extras_signed_witness :
    ((cxRoutesNeg.filter fun x => decide (x.2 = 0)).length ≤ 1) ∧
    ((rankRoutes cxRoutesNeg)[0]?.map
      fun e => (e.extra_duration_minutes, e.extra_distance_km)) =
      some ((-10 : ℚ), (-2 : ℚ)) := by
  refine ⟨by decide, ?_⟩
  have h := ranking_extras_signed cxRoutesNeg (by decide)
  have hfd : findDirect (sortRoutes cxRoutesNeg) = some ⟨[0, 1], 5, 40⟩ := by
    with_unfolding_all decide
  rw [hfd] at h
  have hrk : (sortRoutes cxRoutesNeg)[0]? = some (⟨[0, 2, 1], 3, 30⟩, 1) := by
    with_unfolding_all decide
  cases he : (rankRoutes cxRoutesNeg)[0]? with
  | none =>
    have hlen : (rankRoutes cxRoutesNeg).length = 2 := by
      with_unfolding_all decide
    rw [List.getElem?_eq_none_iff] at he
    omega
  | some e =>
    obtain ⟨rk, hrk2, _, _, hpos⟩ := h 0 e he
    rw [hrk] at hrk2
    injection hrk2 with hrk3
    obtain ⟨hd, hx⟩ := hpos (by rw [← hrk3]; norm_num)
    rw [← hrk3] at hd hx
    simp only [Option.map_some', Option.some_inj]
    rw [hd, hx]
    with_unfolding_all decide

/-- C4 (counterexample to the claim as stated): in the ranked report of a
two-stop request, the rank-2 and rank-3 entries have the same 50-minute
duration but the rank-2 entry is **longer** (9 km versus 7 km): equal
durations are left in enumeration order (Python's stable sort), not
re-ordered by ascending distance as the claim requires. -/
theorem ranking_no_distance_tiebreak_cx :
    ((solvePipeline cxApiRank 0 1 [2, 3]).1.route_rankings.map
      fun e => (e.rank, e.total_duration_minutes, e.total_distance_km)) =
      [(1, 40, 5), (2, 50, 9), (3, 50, 7), (4, 55, 10)] ∧
    (7 : ℚ) < 9 := by
  refine ⟨?_, by norm_num⟩
  with_unfolding_all decide

/-!
### The brute-force search and its optimality in distance
(claims C1 and C2)
-/

theorem bestBy_foldl_spec (key : Route α → ℚ) (distL durL : Lookup α) :
    ∀ (cands : List (List α)) (acc : Option (Route α)),
      (cands.foldl (bestByStep key distL durL) acc = none →
        acc = none ∧ ∀ c ∈ cands, evaluateRoute c distL durL = none) ∧
      (∀ r, cands.foldl (bestByStep key distL durL) acc = some r →
        (acc = some r ∨ ∃ c ∈ cands, evaluateRoute c distL durL = some r) ∧
        (∀ b, acc = some b → key r ≤ key b) ∧
        (∀ c ∈ cands, ∀ rc, evaluateRoute c distL durL = some rc →
          key r ≤ key rc)) := by
  intro cands
  induction cands with
  | nil =>
    intro acc
    constructor
    · intro h
      exact ⟨by simpa using h, by simp⟩
    · intro r h
      simp only [List.foldl_nil] at h
      refine ⟨Or.inl h, ?_, by simp⟩
      intro b hb
      rw [h] at hb
      injection hb with hb
      rw [hb]
  | cons c cs ih =>
    intro acc
    constructor
    · intro h
      simp only [List.foldl_cons] at h
      obtain ⟨hstep, hcs⟩ := (ih (bestByStep key distL durL acc c)).1 h
      have hacc : acc = none ∧ evaluateRoute c distL durL = none := by
        cases he : evaluateRoute c distL durL with
        | none =>
          have hse : bestByStep key distL durL acc c = acc := by
            simp [bestByStep, he]
          rw [hse] at hstep
          exact ⟨hstep, rfl⟩
        | some r =>
          exfalso
          cases acc with
          | none => simp [bestByStep, he] at hstep
          | some b =>
            by_cases hlt : key r < key b <;>
              simp [bestByStep, he, hlt] at hstep
      refine ⟨hacc.1, fun d hd => ?_⟩
      rcases List.mem_cons.1 hd with rfl | hm
      · exact hacc.2
      · exact hcs d hm
    · intro r h
      simp only [List.foldl_cons] at h
      obtain ⟨hsrc, hle, hcs⟩ := (ih (bestByStep key distL durL acc c)).2 r h
      cases he : evaluateRoute c distL durL with
      | none =>
        have hse : bestByStep key distL durL acc c = acc := by
          simp [bestByStep, he]
        rw [hse] at hsrc hle
        refine ⟨?_, hle, ?_⟩
        · rcases hsrc with h1 | ⟨d, hd, hde⟩
          · exact Or.inl h1
          · exact Or.inr ⟨d, List.mem_cons_of_mem _ hd, hde⟩
        · intro d hd rc hrc
          rcases List.mem_cons.1 hd with rfl | hm
          · rw [he] at hrc; cases hrc
          · exact hcs d hm rc hrc
      | some rc0 =>
        have hstep : ∃ x, bestByStep key distL durL acc c = some x ∧
            key x ≤ key rc0 ∧ (∀ b0, acc = some b0 → key x ≤ key b0) ∧
            (evaluateRoute c distL durL = some x ∨ acc = some x) := by
          cases acc with
          | none =>
            refine ⟨rc0, by simp [bestByStep, he], le_refl _, ?_, Or.inl he⟩
            intro b0 hb0
            cases hb0
          | some b0 =>
            by_cases hlt : key rc0 < key b0
            · refine ⟨rc0, by simp [bestByStep, he, hlt], le_refl _, ?_,
                Or.inl he⟩
              intro b1 hb1
              injection hb1 with hb1
              rw [← hb1]
              exact le_of_lt hlt
            · refine ⟨b0, by simp [bestByStep, he, hlt], le_of_not_lt hlt, ?_,
                Or.inr rfl⟩
              intro b1 hb1
              injection hb1 with hb1
              rw [← hb1]
        obtain ⟨x, hx, hxrc, hxacc, hxsrc⟩ := hstep
        rw [hx] at hsrc hle
        have hrx : key r ≤ key x := hle x rfl
        refine ⟨?_, ?_, ?_⟩
        · rcases hsrc with h1 | ⟨d, hd, hde⟩
          · injection h1 with h1
            subst h1
            rcases hxsrc with h2 | h2
            · exact Or.inr ⟨c, List.mem_cons_self _ _, h2⟩
            · exact Or.inl h2
          · exact Or.inr ⟨d, List.mem_cons_of_mem _ hd, hde⟩
        · intro b hb
          exact le_trans hrx (hxacc b hb)
        · intro d hd rc hrc
          rcases List.mem_cons.1 hd with rfl | hm
          · rw [he] at hrc
            injection hrc with hrc
            subst hrc
            exact le_trans hrx hxrc
          · exact hcs d hm rc hrc

theorem bestBy_eq_none (key : Route α → ℚ) (distL durL : Lookup α)
    (cands : List (List α)) (h : bestBy key distL durL cands = none) :
    ∀ c ∈ cands, evaluateRoute c distL durL = none :=
  ((bestBy_foldl_spec key distL durL cands none).1 h).2

theorem bestBy_eq_some (key : Route α → ℚ) (distL durL : Lookup α)
    (cands : List (List α)) (r : Route α)
    (h : bestBy key distL durL cands = some r) :
    (∃ c ∈ cands, evaluateRoute c distL durL = some r) ∧
    ∀ c ∈ cands, ∀ rc, evaluateRoute c distL durL = some rc →
      key r ≤ key rc := by
  obtain ⟨hsrc, _, hmin⟩ := (bestBy_foldl_spec key distL durL cands none).2 r h
  rcases hsrc with h1 | h1
  · cases h1
  · exact ⟨h1, hmin⟩

theorem path_of_evaluateRoute {path : List α} {distL durL : Lookup α}
    {r : Route α} (h : evaluateRoute path distL durL = some r) :
    r.path = path := by
  by_cases hl : path.length < 2
  · simp [evaluateRoute, hl] at h
  · simp only [evaluateRoute, if_neg hl, Option.map_eq_some'] at h
    obtain ⟨a, _, hr⟩ := h
    rw [← hr]

theorem perm_get_cons_eraseIdx (l : List α) (i : Fin l.length) :
    List.Perm l (l.get i :: l.eraseIdx i) := by
  conv_lhs => rw [← List.take_append_drop i l]
  rw [List.eraseIdx_eq_take_drop_succ, List.drop_eq_getElem_cons i.isLt,
    List.get_eq_getElem]
  exact List.perm_middle

theorem permsFuel_mem_iff :
    ∀ (n : ℕ) (l : List α), l.length = n →
      ∀ p : List α, p ∈ permsFuel n l ↔ List.Perm l p := by
  intro n
  induction n with
  | zero =>
    intro l hl p
    have hnil : l = [] := List.eq_nil_of_length_eq_zero hl
    subst hnil
    simp only [permsFuel, List.mem_singleton]
    constructor
    · rintro rfl; exact List.Perm.refl _
    · intro h; exact (List.perm_nil.1 h.symm).symm ▸ rfl
  | succ n ih =>
    intro l hl p
    constructor
    · intro hp
      simp only [permsFuel, List.mem_flatMap, List.mem_map] at hp
      obtain ⟨i, _, q, hq, rfl⟩ := hp
      have hlen : (l.eraseIdx i).length = n := by
        rw [List.length_eraseIdx_of_lt i.isLt]
        omega
      have hq2 : List.Perm (l.eraseIdx i) q := (ih _ hlen q).1 hq
      exact (perm_get_cons_eraseIdx l i).trans (hq2.cons _)
    · intro hp
      cases p with
      | nil =>
        have := hp.length_eq
        rw [hl] at this
        cases this
      | cons y q =>
        have hy : y ∈ l := hp.mem_iff.2 (List.mem_cons_self y q)
        have hidx : l.indexOf y < l.length := List.indexOf_lt_length.2 hy
        have hget : l.get ⟨l.indexOf y, hidx⟩ = y := by
          simp [List.get_eq_getElem, List.getElem_indexOf]
        have hperm1 : List.Perm l (y :: l.eraseIdx (l.indexOf y)) := by
          have hpc := perm_get_cons_eraseIdx l ⟨l.indexOf y, hidx⟩
          rwa [hget] at hpc
        have hq : List.Perm (l.eraseIdx (l.indexOf y)) q :=
          (hperm1.symm.trans hp).cons_inv
        have hlen : (l.eraseIdx (l.indexOf y)).length = n := by
          rw [List.length_eraseIdx_of_lt hidx]
          omega
        simp only [permsFuel, List.mem_flatMap, List.mem_map]
        exact ⟨⟨l.indexOf y, hidx⟩, List.mem_finRange _, q,
          (ih _ hlen q).2 hq, by rw [hget]⟩

theorem mem_permutationsIT {l p : List α} :
    p ∈ permutationsIT l ↔ List.Perm l p :=
  permsFuel_mem_iff l.length l rfl p

/-- C1 (amended): within the 12-location brute-force threshold and with a
fixed start, the solver's candidate set contains the full path built from
**every** ordering of the free locations (with the optional end and the
return-to-start leg appended), and the returned route is one of those
candidates, evaluated through the lookups, whose **total_distance** — not
total duration — is minimal among all valid candidates; when no candidate
is valid, no route is returned. -/
theorem bruteForce_min_total_distance (locations : List α)
    (distL durL : Lookup α) (s : α) (end? : Option α) (rts : Bool)
    (hlen : locations.length ≤ 12) :
    (∀ p, List.Perm (freeLocs locations s end?) p →
      s :: (p ++ bfSuffix s end? rts) ∈ bfCandidates locations (some s) end? rts) ∧
    (match solveTspBruteForce locations distL durL (some s) end? rts with
     | some r =>
        r.path ∈ bfCandidates locations (some s) end? rts ∧
        evaluateRoute r.path distL durL = some r ∧
        ∀ c ∈ bfCandidates locations (some s) end? rts, ∀ rc,
          evaluateRoute c distL durL = some rc →
            r.total_distance ≤ rc.total_distance
     | none =>
        ∀ c ∈ bfCandidates locations (some s) end? rts,
          evaluateRoute c distL durL = none) := by
  have hbf : solveTspBruteForce locations distL durL (some s) end? rts =
      bestBy Route.total_distance distL durL
        (bfCandidates locations (some s) end? rts) := by
    unfold solveTspBruteForce
    rw [if_neg (by omega)]
  constructor
  · intro p hp
    simp only [bfCandidates, List.mem_map]
    exact ⟨p, mem_permutationsIT.2 hp, rfl⟩
  · rw [hbf]
    cases hres : bestBy Route.total_distance distL durL
        (bfCandidates locations (some s) end? rts) with
    | none => exact bestBy_eq_none _ _ _ _ hres
    | some r =>
      obtain ⟨⟨c, hc, he⟩, hmin⟩ := bestBy_eq_some _ _ _ _ _ hres
      have hpath := path_of_evaluateRoute he
      exact ⟨by rw [hpath]; exact hc, by rw [hpath]; exact he, hmin⟩

theorem bruteForce_min_total_distance_witness :
    ([0, 1, 2] : List ℕ).length ≤ 12 ∧
    (∀ rc, evaluateRoute ([0, 2, 1] : List ℕ) cxDistA cxDurA = some rc →
      (2 : ℚ) ≤ rc.total_distance) := by
  refine ⟨by decide, ?_⟩
  have h := (bruteForce_min_total_distance [0, 1, 2] cxDistA cxDurA 0 none
    false (by decide)).2
  have hbf : solveTspBruteForce [0, 1, 2] cxDistA cxDurA (some 0) none false =
      some ⟨[0, 1, 2], 2, 200⟩ := by with_unfolding_all decide
  rw [hbf] at h
  intro rc hrc
  exact h.2.2 [0, 2, 1] (by decide) rc hrc

/-- C2 (amended): on instances within the shared exact-size range the two
exact strategies need not return routes of identical `total_duration`
(brute force minimises distance); what holds is the inequality: the
spec-modelled dynamic-programming route's `total_duration` is at most the
brute-force route's `total_duration`, and the DP strategy succeeds
whenever brute force does. -/
theorem heldKarp_duration_le_bruteForce (locations : List α)
    (distL durL : Lookup α) (start? end? : Option α) (rts : Bool)
    (hlen : locations.length ≤ 12) (r1 : Route α)
    (h1 : solveTspBruteForce locations distL durL start? end? rts = some r1) :
    ∃ r2, solveTspHeldKarp locations distL durL start? end? rts = some r2 ∧
      r2.total_duration ≤ r1.total_duration := by
  unfold solveTspBruteForce at h1
  rw [if_neg (by omega)] at h1
  obtain ⟨⟨c, hc, he⟩, _⟩ := bestBy_eq_some _ _ _ _ _ h1
  cases hres : solveTspHeldKarp locations distL durL start? end? rts with
  | none =>
    unfold solveTspHeldKarp at hres
    have := bestBy_eq_none _ _ _ _ hres c hc
    rw [this] at he
    cases he
  | some r2 =>
    have hres2 := hres
    unfold solveTspHeldKarp at hres2
    obtain ⟨_, hmin⟩ := bestBy_eq_some _ _ _ _ _ hres2
    exact ⟨r2, rfl, hmin c hc r1 he⟩

theorem heldKarp_duration_le_bruteForce_witness :
    ([0, 1, 2, 3] : List ℕ).length ≤ 12 ∧
    solveTspBruteForce [0, 1, 2, 3] cxDistB cxDurB (some 0) (some 3) false =
      some ⟨[0, 1, 2, 3], 3, 30⟩ ∧
    ∃ r2, solveTspHeldKarp [0, 1, 2, 3] cxDistB cxDurB (some 0) (some 3)
        false = some r2 ∧ r2.total_duration ≤ (30 : ℚ) := by
  have hbf : solveTspBruteForce [0, 1, 2, 3] cxDistB cxDurB (some 0) (some 3)
      false = some ⟨[0, 1, 2, 3], 3, 30⟩ := by with_unfolding_all decide
  exact ⟨by decide, hbf,
    heldKarp_duration_le_bruteForce [0, 1, 2, 3] cxDistB cxDurB (some 0)
      (some 3) false (by decide) _ hbf⟩


/-!
### The nearest-neighbor heuristic is greedy in distance (claim C7)
-/

theorem listMinQ_eq_none_iff (xs : List ℚ) : listMinQ xs = none ↔ xs = [] := by
  cases xs <;> simp [listMinQ]

theorem listMinQ_spec (xs : List ℚ) (m : ℚ) (h : listMinQ xs = some m) :
    m ∈ xs ∧ ∀ x ∈ xs, m ≤ x := by
  induction xs generalizing m with
  | nil => cases h
  | cons x t ih =>
    cases hm : listMinQ t with
    | none =>
      have ht : t = [] := (listMinQ_eq_none_iff t).1 hm
      subst ht
      simp only [listMinQ] at h
      injection h with h
      subst h
      simp
    | some mt =>
      simp only [listMinQ, hm] at h
      injection h with h
      subst h
      obtain ⟨hmem, hle⟩ := ih mt hm
      constructor
      · rcases min_choice x mt with hc | hc <;> rw [hc]
        · exact List.mem_cons_self _ _
        · exact List.mem_cons_of_mem _ hmem
      · intro y hy
        rcases List.mem_cons.1 hy with rfl | hmem2
        · exact min_le_left _ _
        · exact le_trans (min_le_right _ _) (hle y hmem2)

theorem selStep_foldl_spec (key : α → Option ℚ) :
    ∀ (uv : List α) (acc : Option (α × ℚ)),
      uv.foldl (selStep key) acc =
        match listMinQ (uv.filterMap key), acc with
        | none, _ => acc
        | some m, none =>
            (uv.find? fun loc => decide (key loc = some m)).map fun loc => (loc, m)
        | some m, some (n0, m0) =>
            if m < m0 then
              (uv.find? fun loc => decide (key loc = some m)).map fun loc => (loc, m)
            else some (n0, m0) := by
  intro uv
  induction uv with
  | nil =>
    intro acc
    simp [listMinQ]
  | cons x t ih =>
    intro acc
    simp only [List.foldl_cons]
    rw [ih (selStep key acc x)]
    cases hx : key x with
    | none =>
      have hfm : (x :: t).filterMap key = t.filterMap key := by
        simp [List.filterMap_cons, hx]
      have hsel : selStep key acc x = acc := by simp [selStep, hx]
      rw [hfm, hsel]
      cases hm : listMinQ (t.filterMap key) with
      | none => rfl
      | some m =>
        have hfind : ((x :: t).find? fun loc => decide (key loc = some m)) =
            t.find? fun loc => decide (key loc = some m) := by
          rw [List.find?_cons_of_neg]
          simp [hx]
        cases acc with
        | none => simp only [hfind]
        | some p =>
          obtain ⟨n0, m0⟩ := p
          simp only [hfind]
    | some d =>
      have hfm : (x :: t).filterMap key = d :: t.filterMap key := by
        simp [List.filterMap_cons, hx]
      rw [hfm]
      cases hm : listMinQ (t.filterMap key) with
      | none =>
        have hmin : listMinQ (d :: t.filterMap key) = some d := by
          simp [listMinQ, hm]
        rw [hmin]
        simp only [hm]
        cases acc with
        | none =>
          have hfind : ((x :: t).find? fun loc => decide (key loc = some d)) =
              some x := by
            rw [List.find?_cons_of_pos] <;> simp [hx]
          simp [selStep, hx, hfind]
        | some p =>
          obtain ⟨n0, m0⟩ := p
          by_cases hlt : d < m0
          · have hfind : ((x :: t).find? fun loc => decide (key loc = some d)) =
                some x := by
              rw [List.find?_cons_of_pos] <;> simp [hx]
            simp [selStep, hx, hlt, hfind]
          · simp [selStep, hx, hlt]
      | some mr =>
        have hmin : listMinQ (d :: t.filterMap key) = some (min d mr) := by
          simp [listMinQ, hm]
        rw [hmin]
        cases acc with
        | none =>
          have hsel : selStep key none x = some (x, d) := by simp [selStep, hx]
          rw [hsel]
          by_cases hcmp : mr < d
          · have hmineq : min d mr = mr := min_eq_right (le_of_lt hcmp)
            have hfind : ((x :: t).find? fun loc => decide (key loc = some mr)) =
                t.find? fun loc => decide (key loc = some mr) := by
              rw [List.find?_cons_of_neg]
              simp only [hx, decide_eq_true_eq, Option.some_inj]
              exact fun h => absurd h (ne_of_gt hcmp)
            simp [hcmp, hmineq, hfind]
          · have hd : d ≤ mr := le_of_not_lt hcmp
            have hmineq : min d mr = d := min_eq_left hd
            have hfind : ((x :: t).find? fun loc => decide (key loc = some d)) =
                some x := by
              rw [List.find?_cons_of_pos] <;> simp [hx]
            simp [hcmp, hmineq, hfind]
        | some p =>
          obtain ⟨n0, m0⟩ := p
          by_cases hdm0 : d < m0
          · have hsel : selStep key (some (n0, m0)) x = some (x, d) := by
              simp [selStep, hx, hdm0]
            rw [hsel]
            by_cases hcmp : mr < d
            · have h1 : min d mr = mr := min_eq_right (le_of_lt hcmp)
              have h2 : mr < m0 := lt_trans hcmp hdm0
              have hfind : ((x :: t).find? fun loc => decide (key loc = some mr)) =
                  t.find? fun loc => decide (key loc = some mr) := by
                rw [List.find?_cons_of_neg]
                simp only [hx, decide_eq_true_eq, Option.some_inj]
                exact fun h => absurd h (ne_of_gt hcmp)
              simp [hcmp, h1, h2, hfind]
            · have hd : d ≤ mr := le_of_not_lt hcmp
              have h1 : min d mr = d := min_eq_left hd
              have hfind : ((x :: t).find? fun loc => decide (key loc = some d)) =
                  some x := by
                rw [List.find?_cons_of_pos] <;> simp [hx]
              simp [hcmp, h1, hdm0, hfind]
          · have hsel : selStep key (some (n0, m0)) x = some (n0, m0) := by
              simp [selStep, hx, hdm0]
            rw [hsel]
            have hm0d : m0 ≤ d := le_of_not_lt hdm0
            by_cases hcmp : mr < m0
            · have h1 : min d mr = mr :=
                min_eq_right (le_trans (le_of_lt hcmp) hm0d)
              have hmrd : mr < d := lt_of_lt_of_le hcmp hm0d
              have hfind : ((x :: t).find? fun loc => decide (key loc = some mr)) =
                  t.find? fun loc => decide (key loc = some mr) := by
                rw [List.find?_cons_of_neg]
                simp only [hx, decide_eq_true_eq, Option.some_inj]
                exact fun h => absurd h (ne_of_gt hmrd)
              simp [hcmp, h1, hfind]
            · have h1 : ¬ min d mr < m0 :=
                not_lt.2 (le_min hm0d (not_lt.1 hcmp))
              simp [hcmp, h1]

theorem selectNearest_eq_firstMinBy (distL : Lookup α) (current : α)
    (uv : List α) :
    selectNearest distL current uv = firstMinBy (distL current) uv := by
  unfold selectNearest firstMinBy
  rw [selStep_foldl_spec]
  cases listMinQ (uv.filterMap (distL current)) with
  | none => rfl
  | some m => simp [Option.map_map, Function.comp_def]

theorem nnVisitFuel_eq_spec (distL : Lookup α) :
    ∀ (fuel : ℕ) (current : α) (uv : List α),
      nnVisitFuel distL fuel current uv = nnSpecVisitFuel distL fuel current uv := by
  intro fuel
  induction fuel with
  | zero =>
    intro current uv
    cases uv <;> rfl
  | succ f ih =>
    intro current uv
    cases uv with
    | nil => rfl
    | cons x t =>
      simp only [nnVisitFuel, nnSpecVisitFuel, selectNearest_eq_firstMinBy]
      cases firstMinBy (distL current) (x :: t) with
      | none => rfl
      | some n => simp [ih]

/-- C7 (amended): the heuristic builds its path by repeatedly moving from
the current location to the unvisited free location with the smallest
**distance** (not duration) from the current location, ties broken by the
first such location in input order (`firstMinBy`), and appends the fixed
end and/or the return-to-start leg last: the source procedure coincides
with the declarative distance-greedy procedure on every input. -/
theorem nearestNeighbor_greedy_by_distance (locations : List α)
    (distL durL : Lookup α) (start? end? : Option α) (rts : Bool) :
    solveTspNearestNeighbor locations distL durL start? end? rts =
      solveTspNearestNeighborSpec distL locations distL durL start? end? rts := by
  unfold solveTspNearestNeighbor solveTspNearestNeighborSpec
  simp only [nnVisitFuel_eq_spec]

/-!
### The heuristic is never better than the exact optimum (claim C9)
-/

theorem selectNearest_mem {distL : Lookup α} {current : α} {uv : List α}
    {n : α} (h : selectNearest distL current uv = some n) : n ∈ uv := by
  unfold selectNearest at h
  rw [selStep_foldl_spec] at h
  cases hm : listMinQ (uv.filterMap (distL current)) with
  | none => rw [hm] at h; cases h
  | some m =>
    rw [hm] at h
    simp only [Option.map_map] at h
    obtain ⟨loc, hfind, hl⟩ := Option.map_eq_some'.1 h
    have hln : loc = n := hl
    subst hln
    exact List.mem_of_find?_eq_some hfind

theorem nnVisit_perm {distL : Lookup α} :
    ∀ (fuel : ℕ) (current : α) (uv σ : List α), uv.length ≤ fuel →
      nnVisitFuel distL fuel current uv = some σ → List.Perm uv σ := by
  intro fuel
  induction fuel with
  | zero =>
    intro current uv σ hlen h
    cases uv with
    | nil =>
      injection h with h
      subst h
      exact List.Perm.refl _
    | cons x t => simp at hlen
  | succ f ih =>
    intro current uv σ hlen h
    cases uv with
    | nil =>
      injection h with h
      subst h
      exact List.Perm.refl _
    | cons x t =>
      simp only [nnVisitFuel] at h
      cases hsel : selectNearest distL current (x :: t) with
      | none => rw [hsel] at h; cases h
      | some n =>
        rw [hsel] at h
        obtain ⟨σ2, hσ2, rfl⟩ := Option.map_eq_some'.1 h
        have hnmem : n ∈ x :: t := selectNearest_mem hsel
        have herase : ((x :: t).erase n).length ≤ f := by
          rw [List.length_erase_of_mem hnmem]
          simp only [List.length_cons] at hlen ⊢
          omega
        have hp := ih n _ σ2 herase hσ2
        exact (List.perm_cons_erase hnmem).trans (hp.cons n)

theorem routeLegs_append_last : ∀ (p : List α) (x : α) (hp : p ≠ []),
    routeLegs (p ++ [x]) = routeLegs p ++ [(p.getLast hp, x)]
  | [a], x, _ => rfl
  | a :: b :: t, x, _ => by
    have ih := routeLegs_append_last (b :: t) x (List.cons_ne_nil _ _)
    have h1 : routeLegs ((a :: b :: t) ++ [x]) =
        (a, b) :: routeLegs ((b :: t) ++ [x]) := rfl
    rw [h1, ih, List.getLast_cons (List.cons_ne_nil _ _)]
    rfl

theorem sumLegs_append_decomp {distL durL : Lookup α}
    {L1 L2 : List (α × α)} {v : ℚ × ℚ}
    (h : sumLegs distL durL (L1 ++ L2) = some v) :
    ∃ v1 v2, sumLegs distL durL L1 = some v1 ∧
      sumLegs distL durL L2 = some v2 ∧
      v.1 = v1.1 + v2.1 ∧ v.2 = v1.2 + v2.2 := by
  induction L1 generalizing v with
  | nil =>
    exact ⟨(0, 0), v, rfl, h, (zero_add _).symm, (zero_add _).symm⟩
  | cons q rest ih =>
    obtain ⟨f, t⟩ := q
    simp only [List.cons_append, sumLegs, List.append_eq] at h
    cases hd : distL f t with
    | none => rw [hd] at h; cases h
    | some d =>
      rw [hd] at h
      cases hs : sumLegs distL durL (rest ++ L2) with
      | none => rw [hs] at h; cases h
      | some w =>
        obtain ⟨D, T⟩ := w
        rw [hs] at h
        injection h with h
        subst h
        obtain ⟨v1, v2, h1, h2, hD, hT⟩ := ih hs
        obtain ⟨v11, v12⟩ := v1
        obtain ⟨v21, v22⟩ := v2
        simp only at hD hT h1 h2
        refine ⟨(d + v11, durOrZero durL (f, t) + v12), (v21, v22), ?_, h2, ?_, ?_⟩
        · simp only [sumLegs, hd, h1, durOrZero]
        · simp only
          rw [hD]
          ring
        · simp only
          rw [hT]
          simp only [durOrZero]
          ring
theorem evaluateRoute_snoc_ge {p : List α} {x : α} {distL durL : Lookup α}
    {r : Route α} (hnn : ∀ a b q, durL a b = some q → 0 ≤ q)
    (hlen : 2 ≤ p.length)
    (h : evaluateRoute (p ++ [x]) distL durL = some r) :
    ∃ r0, evaluateRoute p distL durL = some r0 ∧
      r0.total_duration ≤ r.total_duration := by
  have hp : p ≠ [] := by
    intro h0
    rw [h0] at hlen
    simp at hlen
  have hlen2 : ¬ (p ++ [x]).length < 2 := by
    simp only [List.length_append, List.length_singleton]
    omega
  simp only [evaluateRoute, if_neg hlen2, Option.map_eq_some'] at h
  obtain ⟨v, hv, hr⟩ := h
  rw [routeLegs_append_last p x hp] at hv
  obtain ⟨v1, v2, h1, h2, hD, hT⟩ := sumLegs_append_decomp hv
  refine ⟨⟨p, v1.1, v1.2⟩, ?_, ?_⟩
  · simp only [evaluateRoute, if_neg (Nat.not_lt.2 hlen), h1, Option.map_some']
  · rw [← hr]
    show v1.2 ≤ v.2
    rw [hT]
    have hv2 : 0 ≤ v2.2 := by
      simp only [sumLegs] at h2
      cases hd : distL (p.getLast hp) x with
      | none => rw [hd] at h2; cases h2
      | some d =>
        rw [hd] at h2
        injection h2 with h2
        rw [← h2]
        show (0 : ℚ) ≤ (match durL (p.getLast hp) x with
          | some u => u | none => 0) + 0
        cases hu : durL (p.getLast hp) x with
        | none => simp
        | some u => simpa using hnn _ _ _ hu
    linarith

theorem minDurationOfOrderings_le {locations : List α}
    {distL durL : Lookup α} {start? end? : Option α} {rts : Bool} {m : ℚ}
    {c : List α} {rc : Route α}
    (hm : minDurationOfOrderings locations distL durL start? end? rts = some m)
    (hc : c ∈ bfCandidates locations start? end? rts)
    (he : evaluateRoute c distL durL = some rc) :
    m ≤ rc.total_duration := by
  unfold minDurationOfOrderings at hm
  exact (listMinQ_spec _ _ hm).2 _
    (List.mem_filterMap.2 ⟨c, hc, by rw [he]; rfl⟩)

theorem freeLocs_none_eq (locations : List α) (s : α) :
    freeLocs locations s none = locations.filter (fun x => decide (x ≠ s)) := rfl

theorem freeLocs_some_eq (locations : List α) (s e : α) :
    freeLocs locations s (some e) =
      if e ≠ s then
        (locations.filter (fun x => decide (x ≠ s))).filter
          (fun x => decide (x ≠ e))
      else locations.filter (fun x => decide (x ≠ s)) := rfl

theorem freeLocs_ne_start {locations : List α} {s : α} {end? : Option α}
    {y : α} (hy : y ∈ freeLocs locations s end?) : y ≠ s := by
  cases end? with
  | none =>
    rw [freeLocs_none_eq] at hy
    simpa using (List.mem_filter.1 hy).2
  | some e =>
    rw [freeLocs_some_eq] at hy
    by_cases hes : e ≠ s
    · rw [if_pos hes] at hy
      have := (List.mem_filter.1 hy).1
      simpa using (List.mem_filter.1 this).2
    · rw [if_neg hes] at hy
      simpa using (List.mem_filter.1 hy).2

theorem freeLocs_ne_end {locations : List α} {s e : α} {y : α} (hes : e ≠ s)
    (hy : y ∈ freeLocs locations s (some e)) : y ≠ e := by
  rw [freeLocs_some_eq, if_pos hes] at hy
  simpa using (List.mem_filter.1 hy).2

/-- Case analysis of the heuristic's finished path: it is either the
degenerate single-element path (no end appended), or exactly a brute-force
candidate `start :: (σ ++ bfSuffix ...)`, or — only when the end equals
the start and `return_to_start` is unset — a brute-force candidate with
one extra closing leg back to the start. -/
theorem nnAssemble_cases (s : α) (σ : List α) (end? : Option α) (rts : Bool)
    (hσs : s ∉ σ) (hσe : ∀ e, end? = some e → e ≠ s → e ∉ σ) :
    (σ = [] ∧ (end? = none ∨ end? = some s) ∧ nnAssemble s σ end? rts = [s]) ∨
    nnAssemble s σ end? rts = s :: (σ ++ bfSuffix s end? rts) ∨
    (end? = some s ∧ rts = false ∧ σ ≠ [] ∧
      nnAssemble s σ end? rts = (s :: σ) ++ [s]) := by
  cases hσ : σ with
  | nil =>
    cases end? with
    | none =>
      refine Or.inl ⟨rfl, Or.inl rfl, ?_⟩
      simp [nnAssemble]
    | some e =>
      by_cases hes : e = s
      · subst hes
        refine Or.inl ⟨rfl, Or.inr rfl, ?_⟩
        simp [nnAssemble]
      · refine Or.inr (Or.inl ?_)
        have hcur : ([s] : List α).getLast (List.cons_ne_nil _ _) = s := rfl
        simp only [nnAssemble, hcur, if_pos (hes : e ≠ s)]
        cases rts with
        | false => simp [bfSuffix, hes]
        | true =>
          have hgl : ([s, e] : List α).getLast? = some e := rfl
          simp [bfSuffix, hes, hgl, Ne.symm hes]
  | cons v σ2 =>
    subst hσ
    have hne : (v :: σ2 : List α) ≠ [] := List.cons_ne_nil _ _
    have hcur : (s :: v :: σ2).getLast (List.cons_ne_nil _ _) =
        (v :: σ2).getLast hne := List.getLast_cons hne
    have hcmem : (v :: σ2).getLast hne ∈ v :: σ2 := List.getLast_mem hne
    have hcs : (v :: σ2).getLast hne ≠ s := by
      intro hcon
      exact hσs (hcon ▸ hcmem)
    cases end? with
    | none =>
      refine Or.inr (Or.inl ?_)
      have hgl : (s :: v :: σ2).getLast? = some ((v :: σ2).getLast hne) := by
        rw [List.getLast?_eq_getLast _ (List.cons_ne_nil _ _), hcur]
      simp only [nnAssemble, hgl]
      cases rts with
      | false => simp [bfSuffix]
      | true =>
        rw [if_pos ⟨rfl, by simp [hcs]⟩]
        simp [bfSuffix]
    | some e =>
      by_cases hes : e = s
      · have hcond : e ≠ (v :: σ2).getLast hne := by
          rw [hes]
          exact Ne.symm hcs
        have hgl : ((s :: v :: σ2) ++ [e]).getLast? = some s := by
          rw [List.getLast?_concat, hes]
        have hpath : nnAssemble s (v :: σ2) (some e) rts =
            (s :: v :: σ2) ++ [e] := by
          simp only [nnAssemble, hcur, if_pos hcond]
          rw [if_neg]
          intro hc
          exact hc.2 hgl
        cases rts with
        | true =>
          refine Or.inr (Or.inl ?_)
          rw [hpath, hes]
          simp [bfSuffix]
        | false =>
          refine Or.inr (Or.inr ⟨by rw [hes], rfl, hne, by rw [hpath, hes]⟩)
      · refine Or.inr (Or.inl ?_)
        have hee : e ∉ v :: σ2 := hσe e rfl hes
        have hce : e ≠ (v :: σ2).getLast hne := by
          intro hcon
          exact hee (hcon ▸ hcmem)
        simp only [nnAssemble, hcur, if_pos hce]
        have hgl : ((s :: v :: σ2) ++ [e]).getLast? = some e :=
          List.getLast?_concat _
        cases rts with
        | false => simp [bfSuffix, hes]
        | true =>
          have hcond2 : ((s :: v :: σ2) ++ [e]).getLast? ≠ some s := by
            rw [hgl]
            simp [hes]
          rw [if_pos ⟨rfl, hcond2⟩]
          simp [bfSuffix, hes]

/-- C9 (amended): with nonnegative durations, pairwise-distinct locations,
and either a fixed start or no fixed end, the heuristic's route duration
is at least the minimal total duration over all orderings the exact search
enumerates — the heuristic is never better than the exact optimum under
those conditions (see the counterexample for why they are needed). -/
theorem nearestNeighbor_ge_exact_optimum (locations : List α)
    (distL durL : Lookup α) (start? end? : Option α) (rts : Bool)
    (hnd : locations.Nodup)
    (hnonneg : ∀ a b q, durL a b = some q → 0 ≤ q)
    (hscope : start?.isSome ∨ end? = none)
    (r : Route α)
    (hr : solveTspNearestNeighbor locations distL durL start? end? rts = some r)
    (m : ℚ)
    (hm : minDurationOfOrderings locations distL durL start? end? rts = some m) :
    m ≤ r.total_duration := by
  cases start? with
  | some s =>
    simp only [solveTspNearestNeighbor] at hr
    cases hv : nnVisitFuel distL (freeLocs locations s end?).length s
        (freeLocs locations s end?) with
    | none => rw [hv] at hr; cases hr
    | some σ =>
      rw [hv] at hr
      have hr2 : evaluateRoute (nnAssemble s σ end? rts) distL durL =
          some r := hr
      have hperm : List.Perm (freeLocs locations s end?) σ :=
        nnVisit_perm _ _ _ _ (le_refl _) hv
      have hσs : s ∉ σ := by
        intro hmem
        exact freeLocs_ne_start (hperm.mem_iff.2 hmem) rfl
      have hσe : ∀ e, end? = some e → e ≠ s → e ∉ σ := by
        intro e he hes hmem
        subst he
        exact freeLocs_ne_end hes (hperm.mem_iff.2 hmem) rfl
      rcases nnAssemble_cases s σ end? rts hσs hσe with
        ⟨hσnil, _, hpath⟩ | hpath | ⟨hend, hrts, hσne, hpath⟩
      · rw [hpath] at hr2
        simp [evaluateRoute] at hr2
      · rw [hpath] at hr2
        refine minDurationOfOrderings_le hm ?_ hr2
        simp only [bfCandidates, List.mem_map]
        exact ⟨σ, mem_permutationsIT.2 hperm, rfl⟩
      · rw [hpath] at hr2
        have hσlen : 2 ≤ (s :: σ).length := by
          cases σ with
          | nil => exact absurd rfl hσne
          | cons a t =>
            simp only [List.length_cons]
            omega
        obtain ⟨r0, hr0, hle⟩ := evaluateRoute_snoc_ge hnonneg hσlen hr2
        have hc : (s :: σ) ∈ bfCandidates locations (some s) end? rts := by
          subst hend
          subst hrts
          simp only [bfCandidates, List.mem_map]
          refine ⟨σ, mem_permutationsIT.2 hperm, ?_⟩
          simp [bfSuffix]
        exact le_trans (minDurationOfOrderings_le hm hc hr0) hle
  | none =>
    have hend : end? = none := by
      rcases hscope with h | h
      · simp at h
      · exact h
    subst hend
    cases locations with
    | nil => simp [solveTspNearestNeighbor] at hr
    | cons c0 rest =>
      simp only [solveTspNearestNeighbor] at hr
      cases hv : nnVisitFuel distL rest.length c0 rest with
      | none => rw [hv] at hr; cases hr
      | some σ =>
        rw [hv] at hr
        have hr2 : evaluateRoute (nnAssemble c0 σ none rts) distL durL =
            some r := hr
        have hperm : List.Perm rest σ := nnVisit_perm _ _ _ _ (le_refl _) hv
        have hc0 : c0 ∉ σ := by
          intro hmem
          exact (List.nodup_cons.1 hnd).1 (hperm.mem_iff.2 hmem)
        rcases nnAssemble_cases c0 σ none rts hc0 (fun e he => by cases he) with
          ⟨hσnil, _, hpath⟩ | hpath | ⟨hend2, _, _, _⟩
        · rw [hpath] at hr2
          simp [evaluateRoute] at hr2
        · rw [hpath] at hr2
          refine minDurationOfOrderings_le hm ?_ hr2
          simp only [bfCandidates, List.mem_map]
          refine ⟨c0 :: σ, mem_permutationsIT.2 (hperm.cons c0), ?_⟩
          cases rts with
          | false => simp [bfSuffix]
          | true => simp [bfSuffix]
        · cases hend2

theorem nearestNeighbor_ge_exact_optimum_witness :
    (([0, 1, 2] : List ℕ).Nodup ∧
      (∀ a b q, cxDurC a b = some q → 0 ≤ q) ∧
      ((some 0 : Option ℕ).isSome = true ∨ (none : Option ℕ) = none) ∧
      solveTspNearestNeighbor [0, 1, 2] cxDistC cxDurC (some 0) none false =
        some ⟨[0, 1, 2], 2, 12⟩ ∧
      minDurationOfOrderings [0, 1, 2] cxDistC cxDurC (some 0) none false =
        some 3) ∧
    (3 : ℚ) ≤ (12 : ℚ) := by
  have hnonneg : ∀ a b q, cxDurC a b = some q → 0 ≤ q := by
    intro a b q hq
    simp only [cxDurC, Option.some_inj] at hq
    rw [← hq]
    split_ifs <;> norm_num
  have hnn : solveTspNearestNeighbor [0, 1, 2] cxDistC cxDurC (some 0) none
      false = some ⟨[0, 1, 2], 2, 12⟩ := by
    with_unfolding_all decide
  have hmin : minDurationOfOrderings [0, 1, 2] cxDistC cxDurC (some 0) none
      false = some 3 := by
    with_unfolding_all decide
  refine ⟨⟨by decide, hnonneg, Or.inl rfl, hnn, hmin⟩, ?_⟩
  exact nearestNeighbor_ge_exact_optimum [0, 1, 2] cxDistC cxDurC (some 0)
    none false (by decide) hnonneg (Or.inl rfl) _ hnn _ hmin

end RoutePlanner
